import Mathlib

/-!
Verification development for `pagerank_crawl_and_visualize.py`.

The script crawls pages within one domain starting from a root URL, builds a
directed link graph, computes PageRank, assigns edge weights, and renders the
graph.  This file gives a shallow embedding of the algorithmic core:

* `normalize` embeds `normalize` (src lines 29-31): `urldefrag` followed by
  `rstrip` with a slash argument.  The Python primitives `urldefrag` and
  `str.rstrip` are modelled at the character-list level exactly as documented:
  `urldefrag` keeps everything before the first hash character, `rstrip`
  removes every trailing occurrence of the stripped character.
* `same_domain` embeds `same_domain` (src lines 26-27); the `urlparse`
  network-location extraction from `urllib` is modelled from the spec
  (section 4.2): the netloc is the component between a double slash
  (after an optional scheme prefix) and the next path, query or fragment
  delimiter.
* `crawlLoop`, `visitUrl`, `processLinks`, `addLink` embed `crawl`
  (src lines 33-62).  The external fetchplus-extract collaborator is a
  parameter `fetch : String → Option (List String)` (`none` models a raised
  transport or parse error, `some links` models the extracted raw hrefs);
  the `urljoin` resolution step from `urllib` is a parameter
  `resolve : String → String → String`, as both are external collaborators
  (spec section 6).  The page budget is an integer, matching the Python
  `int` argument parsed by argparse.
* `pagerank` is modelled from the spec: `nx.pagerank` (networkx, external to
  the repository source) as specified in section 4.4 — power iteration with
  uniform dangling-node redistribution and an L1 convergence check — using
  exact rational arithmetic.
* `compute_and_visualize` embeds the algorithmic part of
  `compute_and_visualize` (src lines 64-71): the empty-graph guard, the
  PageRank call with alpha = 0.85, and the edge weighting
  `weight(u,v) = pr.get(u, 0.0)`.  Rendering (matplotlib) is out of scope.
-/

namespace PagerankCrawl

/-- Model of the first component of Python `urldefrag`: everything before the
first hash character (the fragment and the hash itself are removed). -/
def defragChars (l : List Char) : List Char := l.takeWhile (fun c => c != '#')

/-- Model of Python `str.rstrip` with a slash argument: remove every trailing
slash character. -/
def rstripSlash (l : List Char) : List Char :=
  (l.reverse.dropWhile (fun c => c == '/')).reverse

/-- Embeds `normalize` (src lines 29-31): strip the fragment, then strip
trailing slashes. -/
def normalize (s : String) : String := String.mk (rstripSlash (defragChars s.toList))

/-- Characters allowed in a URL scheme (letters, digits, plus, minus, dot),
as in `urllib.parse`. -/
def isSchemeChar (c : Char) : Bool := c.isAlpha || c.isDigit || c == '+' || c == '-' || c == '.'

/-- Modelled from the spec: the scheme-splitting step of `urlparse` from
`urllib` (external library).  If the text before the first colon is a
non-empty scheme (first character a letter, all characters scheme
characters), drop the scheme and the colon; otherwise keep the whole URL. -/
def dropScheme (l : List Char) : List Char :=
  let pre := l.takeWhile (fun c => c != ':')
  if pre.length < l.length ∧ pre ≠ [] ∧ pre.all isSchemeChar = true ∧ pre.headI.isAlpha = true
  then l.drop (pre.length + 1) else l

/-- Modelled from the spec (section 4.2): the network-location component of a
URL — present only when the remainder after the scheme starts with a double
slash, and delimited by the next path, query or fragment character. -/
def netlocChars (l : List Char) : List Char :=
  match dropScheme l with
  | '/' :: '/' :: rest => rest.takeWhile (fun c => c != '/' && c != '?' && c != '#')
  | _ => []

/-- The netloc of a URL string. -/
def netloc (s : String) : String := String.mk (netlocChars s.toList)

/-- Embeds `same_domain` (src lines 26-27): the netlocs compared as strings. -/
def same_domain (a b : String) : Bool := netloc a == netloc b

/-- The mutable state of `crawl` (src lines 36-38): the frontier list
`to_visit`, the `visited` set, and the `networkx.DiGraph` `G` represented by
its node set and edge set (`add_node` and `add_edge` are idempotent set
insertions). -/
structure CrawlState where
  to_visit : List String
  visited : Finset String
  nodes : Finset String
  edges : Finset (String × String)
deriving DecidableEq

/-- Embeds the body of the link loop (src lines 57-61) for one already
resolved and normalized link `full`: if it is same-domain, add the node and
the edge, and append it to the frontier when it is neither visited nor
already queued.  The accumulator is `(to_visit, nodes, edges)`; `visited` is
read-only inside the loop. -/
def addLink (root url : String) (visited : Finset String)
    (acc : List String × Finset String × Finset (String × String)) (full : String) :
    List String × Finset String × Finset (String × String) :=
  if same_domain root full then
    if full ∉ visited ∧ full ∉ acc.1 then
      (acc.1 ++ [full], insert full acc.2.1, insert (url, full) acc.2.2)
    else (acc.1, insert full acc.2.1, insert (url, full) acc.2.2)
  else acc

/-- Embeds the link loop of `crawl` (src lines 53-61): resolve each raw href
against the page URL, normalize it, and process it with `addLink`. -/
def processLinks (resolve : String → String → String) (root url : String)
    (visited : Finset String) (links : List String)
    (acc : List String × Finset String × Finset (String × String)) :
    List String × Finset String × Finset (String × String) :=
  links.foldl (fun acc href => addLink root url visited acc (normalize (resolve url href))) acc

/-- Embeds one attempted page visit (src lines 43-61), for a state whose
frontier has already been popped: on fetch failure the URL is only marked
visited; on success it is marked visited, added as a node, and its links are
processed. -/
def visitUrl (fetch : String → Option (List String)) (resolve : String → String → String)
    (root url : String) (s : CrawlState) : CrawlState :=
  match fetch url with
  | none => { s with visited := insert url s.visited }
  | some links =>
    let t := processLinks resolve root url (insert url s.visited) links
      (s.to_visit, insert url s.nodes, s.edges)
    { to_visit := t.1, visited := insert url s.visited, nodes := t.2.1, edges := t.2.2 }

/-- Embeds the main loop of `crawl` (src lines 39-61): while the frontier is
non-empty and fewer than `max_pages` pages are visited, pop the head; skip it
if already visited, otherwise visit it. -/
def crawlLoop (fetch : String → Option (List String)) (resolve : String → String → String)
    (root : String) (max_pages : ℤ) (s : CrawlState) : CrawlState :=
  if hv : s.to_visit = [] then s
  else
    let url := s.to_visit.head hv
    let rest := s.to_visit.tail
    if hk : (s.visited.card : ℤ) < max_pages then
      if hmem : url ∈ s.visited then
        crawlLoop fetch resolve root max_pages { s with to_visit := rest }
      else
        crawlLoop fetch resolve root max_pages
          (visitUrl fetch resolve root url { s with to_visit := rest })
    else s
termination_by ((max_pages - s.visited.card).toNat, s.to_visit.length)
decreasing_by
  · apply Prod.Lex.right
    simp only [List.length_tail]
    have := List.length_pos.mpr hv
    omega
  · have hvis : (visitUrl fetch resolve root (s.to_visit.head hv)
        { s with to_visit := s.to_visit.tail }).visited
        = insert (s.to_visit.head hv) s.visited := by
      unfold visitUrl
      cases fetch (s.to_visit.head hv) <;> rfl
    rw [hvis]
    apply Prod.Lex.left
    have h1 : (insert (s.to_visit.head hv) s.visited).card = s.visited.card + 1 :=
      Finset.card_insert_of_not_mem hmem
    rw [h1]
    omega

/-- The state of `crawl` right after initialization (src lines 34-38): the
frontier holds only the normalized root, everything else is empty. -/
def initState (root : String) : CrawlState :=
  { to_visit := [normalize root], visited := ∅, nodes := ∅, edges := ∅ }

/-- The final crawl state: `crawl` (src lines 33-62) normalizes the root and
runs the main loop from the initial state. -/
def crawlState (fetch : String → Option (List String)) (resolve : String → String → String)
    (root : String) (max_pages : ℤ) : CrawlState :=
  crawlLoop fetch resolve (normalize root) max_pages (initState root)

/-- The graph returned by `crawl` (src line 62): node set and edge set. -/
def crawl (fetch : String → Option (List String)) (resolve : String → String → String)
    (root : String) (max_pages : ℤ) : Finset String × Finset (String × String) :=
  ((crawlState fetch resolve root max_pages).nodes,
    (crawlState fetch resolve root max_pages).edges)

/-- One iteration of the crawl main loop, as a relation between states; used
to speak about every intermediate point of an execution.  `hit` is the
dequeue-time guard branch (src lines 41-42), `visit` the page-visit branch
(src lines 43-61). -/
inductive Step (fetch : String → Option (List String)) (resolve : String → String → String)
    (root : String) (max_pages : ℤ) : CrawlState → CrawlState → Prop
  | hit : ∀ s url rest, s.to_visit = url :: rest → (s.visited.card : ℤ) < max_pages →
      url ∈ s.visited → Step fetch resolve root max_pages s { s with to_visit := rest }
  | visit : ∀ s url rest, s.to_visit = url :: rest → (s.visited.card : ℤ) < max_pages →
      url ∉ s.visited →
      Step fetch resolve root max_pages s
        (visitUrl fetch resolve root url { s with to_visit := rest })

/-- The same-domain pages reachable from the root through successful fetches:
the normalized root, plus every normalized resolved link of a reachable page
whose domain matches the normalized root. -/
inductive Reach (fetch : String → Option (List String)) (resolve : String → String → String)
    (root : String) : String → Prop
  | origin : Reach fetch resolve root (normalize root)
  | follow : ∀ u links href, Reach fetch resolve root u → fetch u = some links →
      href ∈ links → same_domain (normalize root) (normalize (resolve u href)) = true →
      Reach fetch resolve root (normalize (resolve u href))

/-- The breadth-first coverage invariant of the crawl loop: the (normalized)
root is either visited or queued, and every same-domain normalized link of a
visited page whose fetch succeeded is either visited or queued. -/
def LinksCovered (fetch : String → Option (List String)) (resolve : String → String → String)
    (root : String) (s : CrawlState) : Prop :=
  (root ∈ s.visited ∨ root ∈ s.to_visit) ∧
    ∀ u ∈ s.visited, ∀ links, fetch u = some links → ∀ href ∈ links,
      same_domain root (normalize (resolve u href)) = true →
      (normalize (resolve u href) ∈ s.visited ∨ normalize (resolve u href) ∈ s.to_visit)

/-- Transcribed from the spec wording for the frontier discipline (sections 3
and 4.3 step 4): process discovered canonical links in order, appending a
link to the tail of the queue exactly when it is same-domain, not visited,
and not already present in the queue.  This is the specification side of the
frontier refinement theorem. -/
def fifoEnqueue (root : String) (visited : Finset String) (frontier : List String)
    (links : List String) : List String :=
  links.foldl
    (fun q full =>
      if same_domain root full = true ∧ full ∉ visited ∧ full ∉ q then q ++ [full] else q)
    frontier

/-- Transcribed from the claim wording for the normalizer: strip the
fragment, then remove exactly one trailing slash if the remaining string is
non-empty and ends with a slash.  This is the claimed behaviour, to be
compared with `normalize`. -/
def normalizeOne (s : String) : String :=
  let d := defragChars s.toList
  String.mk (if d.getLast? == some '/' then d.dropLast else d)

/-- The out-degree of `u`: the number of stored edges with source `u`. -/
def outdeg (E : Finset (String × String)) (u : String) : ℕ :=
  (E.filter (fun e => e.1 = u)).card

/-- The dangling nodes of a graph: nodes with zero out-degree. -/
def dangling (V : Finset String) (E : Finset (String × String)) : Finset String :=
  V.filter (fun u => outdeg E u = 0)

/-- Modelled from the spec (section 4.4): one power-iteration update.  Each
node receives `(1 - alpha)/N` plus `alpha` times the mass arriving over its
in-edges (each source contributes its score divided by its out-degree) plus
`alpha` times a uniform share of the total mass held by dangling nodes. -/
def prStep (V : Finset String) (E : Finset (String × String)) (α : ℚ) (p : String → ℚ) :
    String → ℚ :=
  fun v =>
    (1 - α) / (V.card : ℚ) +
      α * ((∑ u in V.filter (fun u => (u, v) ∈ E), p u / (outdeg E u : ℚ)) +
        (∑ u in dangling V E, p u) / (V.card : ℚ))

/-- Modelled from the spec (section 4.4): the initial score vector, `1/N` for
every node. -/
def prInit (V : Finset String) : String → ℚ := fun _ => 1 / (V.card : ℚ)

/-- Modelled from the spec (section 4.4): iterate `prStep` until the L1
distance between successive vectors falls below the tolerance or the
iteration budget is exhausted, returning the last computed vector. -/
def pagerankAux (V : Finset String) (E : Finset (String × String)) (α tol : ℚ) :
    ℕ → (String → ℚ) → (String → ℚ)
  | 0, p => p
  | n + 1, p =>
    let q := prStep V E α p
    if (∑ v in V, |q v - p v|) < tol then q else pagerankAux V E α tol n q

/-- Modelled from the spec: `nx.pagerank` (networkx, external to the
repository source), as the power iteration of section 4.4 started from the
uniform vector. -/
def pagerank (V : Finset String) (E : Finset (String × String)) (α tol : ℚ) (cap : ℕ) :
    String → ℚ :=
  pagerankAux V E α tol cap (prInit V)

/-- Embeds the algorithmic part of `compute_and_visualize` (src lines 64-71):
`none` models the early return on an empty graph (src lines 65-67); otherwise
PageRank runs with alpha = 0.85 (networkx defaults: tolerance 1e-6, one
hundred iterations) and every edge `(u, v)` is weighted by `pr.get(u, 0.0)`.
The matplotlib rendering (src lines 72-86) is an external collaborator and
out of scope. -/
def compute_and_visualize (V : Finset String) (E : Finset (String × String)) :
    Option ((String → ℚ) × ((String × String) → ℚ)) :=
  if V.card = 0 then none
  else
    let pr := pagerank V E (85 / 100) (1 / 1000000) 100
    some (pr, fun e => if e ∈ E then pr e.1 else 0)

/-! ### Lemmas about the URL normalizer -/

lemma dropWhile_slash_replicate (n : ℕ) (t : List Char) :
    List.dropWhile (fun c => c == '/') (List.replicate n '/' ++ t)
      = List.dropWhile (fun c => c == '/') t := by
  induction n with
  | zero => rfl
  | succ m ih => simpa [List.replicate_succ] using ih

lemma rstripSlash_append_slashes (l : List Char) (n : ℕ) :
    rstripSlash (l ++ List.replicate n '/') = rstripSlash l := by
  unfold rstripSlash
  rw [List.reverse_append, List.reverse_replicate, dropWhile_slash_replicate]

lemma defragChars_eq_self_of_no_hash (l : List Char) (h : ∀ c ∈ l, c ≠ '#') :
    defragChars l = l := by
  induction l with
  | nil => rfl
  | cons a t ih =>
    have ha : (a != '#') = true := by
      simpa using h a (List.mem_cons_self a t)
    have ht := ih (fun c hc => h c (List.mem_cons_of_mem a hc))
    simp only [defragChars] at ht ⊢
    simp [List.takeWhile_cons, ha, ht]

lemma defragChars_append_of_no_hash (l r : List Char) (h : ∀ c ∈ l, c ≠ '#') :
    defragChars (l ++ r) = l ++ defragChars r := by
  induction l with
  | nil => rfl
  | cons a t ih =>
    have ha : (a != '#') = true := by
      simpa using h a (List.mem_cons_self a t)
    have ht := ih (fun c hc => h c (List.mem_cons_of_mem a hc))
    simp only [defragChars] at ht ⊢
    simp [List.takeWhile_cons, ha, ht]

lemma defragChars_append_of_hash (l r : List Char) (h : '#' ∈ l) :
    defragChars (l ++ r) = defragChars l := by
  induction l with
  | nil => cases h
  | cons a t ih =>
    by_cases ha : a = '#'
    · subst ha
      simp [defragChars, List.takeWhile_cons]
    · have ht : '#' ∈ t := by
        rcases List.mem_cons.mp h with h1 | h1
        · exact absurd h1.symm ha
        · exact h1
      have ha' : (a != '#') = true := by simpa using ha
      simp only [defragChars] at ih ⊢
      simp [List.takeWhile_cons, ha', ih ht]

lemma mem_rstripSlash (l : List Char) (c : Char) (h : c ∈ rstripSlash l) : c ∈ l := by
  unfold rstripSlash at h
  rw [List.mem_reverse] at h
  have h2 := (List.dropWhile_sublist (l := l.reverse) (p := fun c => c == '/')).subset h
  exact List.mem_reverse.mp h2

lemma head_dropWhile_not (p : Char → Bool) :
    ∀ (r : List Char) (c : Char), (r.dropWhile p).head? = some c → p c = false := by
  intro r
  induction r with
  | nil => intro c h; cases h
  | cons a t ih =>
    intro c h
    by_cases hp : p a
    · rw [List.dropWhile_cons, if_pos hp] at h
      exact ih c h
    · rw [List.dropWhile_cons, if_neg hp] at h
      simp only [List.head?_cons, Option.some.injEq] at h
      subst h
      simpa using hp

lemma rstripSlash_getLast (l : List Char) : (rstripSlash l).getLast? ≠ some '/' := by
  unfold rstripSlash
  intro h
  rw [List.getLast?_reverse] at h
  have := head_dropWhile_not (fun c => c == '/') l.reverse '/' h
  simp at this

/-- Claim C1: the claim reads `normalize` as removing exactly one trailing
slash and concludes that URLs differing in trailing slash count greater than
one are not merged.  Both parts are false at the concrete input
`https://e.com/p//`: the code's `rstrip` removes every trailing slash, so the
result differs from the claimed one-slash form, and the one-slash and
two-slash spellings are mapped to the same canonical string. -/
theorem normalize_one_slash_refuted :
    normalize "https://e.com/p//" ≠ normalizeOne "https://e.com/p//" ∧
    normalize "https://e.com/p/" = normalize "https://e.com/p//" := by
  constructor
  · decide
  · decide

/-- Claim C1 (amended): `normalize` strips any fragment component and then
removes all trailing slashes, so appending any number of trailing slashes to
a URL never changes its canonical form; the canonical form contains no hash
character and never ends in a slash. -/
theorem normalize_strips_all_trailing_slashes :
    (∀ (u : String) (n : ℕ),
        normalize (u ++ String.mk (List.replicate n '/')) = normalize u)
  ∧ (∀ s : String, ∀ c ∈ (normalize s).toList, c ≠ '#')
  ∧ (∀ s : String, (normalize s).toList.getLast? ≠ some '/') := by
  refine ⟨?_, ?_, ?_⟩
  · intro u n
    have htl : (u ++ String.mk (List.replicate n '/')).toList
        = u.toList ++ List.replicate n '/' := by
      simp [String.toList, String.data_append]
    unfold normalize
    rw [htl]
    by_cases h : '#' ∈ u.toList
    · rw [defragChars_append_of_hash _ _ h]
    · have h' : ∀ c ∈ u.toList, c ≠ '#' := fun c hc hcq => h (hcq ▸ hc)
      have hrep : ∀ c ∈ List.replicate n '/', c ≠ '#' := by
        intro c hc
        rw [List.eq_of_mem_replicate hc]
        decide
      rw [defragChars_append_of_no_hash _ _ h', defragChars_eq_self_of_no_hash _ h',
        defragChars_eq_self_of_no_hash _ hrep, rstripSlash_append_slashes]
  · intro s c hc hceq
    have h1 : c ∈ defragChars s.toList := mem_rstripSlash _ c hc
    have h2 := List.mem_takeWhile_imp h1
    rw [hceq] at h2
    simp at h2
  · intro s
    exact rstripSlash_getLast (defragChars s.toList)

/-- Instantiation of the amended claim C1 at a concrete input. -/
theorem normalize_strips_all_trailing_slashes_inst :
    normalize ("https://e.com/p" ++ String.mk (List.replicate 2 '/'))
      = normalize "https://e.com/p" :=
  normalize_strips_all_trailing_slashes.1 "https://e.com/p" 2

/-! ### Lemmas about link processing -/

lemma addLink_fst (root url : String) (visited : Finset String)
    (acc : List String × Finset String × Finset (String × String)) (full : String) :
    (addLink root url visited acc full).1
      = if same_domain root full = true ∧ full ∉ visited ∧ full ∉ acc.1
        then acc.1 ++ [full] else acc.1 := by
  by_cases hsd : same_domain root full = true
  · by_cases hin : full ∉ visited ∧ full ∉ acc.1
    · simp [addLink, hsd, hin]
    · simp only [addLink, hsd, if_true, if_neg hin]
      rw [if_neg]
      intro hc
      exact hin hc.2
  · simp only [addLink, Bool.not_eq_true] at hsd ⊢
    rw [hsd]
    simp [hsd]

lemma addLink_fst_mem (root url : String) (visited : Finset String)
    (acc : List String × Finset String × Finset (String × String)) (full x : String)
    (hx : x ∈ acc.1) : x ∈ (addLink root url visited acc full).1 := by
  rw [addLink_fst]
  by_cases hc : same_domain root full = true ∧ full ∉ visited ∧ full ∉ acc.1
  · rw [if_pos hc]; exact List.mem_append_left _ hx
  · rw [if_neg hc]; exact hx

lemma addLink_edges_mem (root url : String) (visited : Finset String)
    (acc : List String × Finset String × Finset (String × String)) (full : String)
    (x : String × String) (hx : x ∈ acc.2.2) : x ∈ (addLink root url visited acc full).2.2 := by
  unfold addLink
  by_cases hsd : same_domain root full = true
  · rw [if_pos hsd]
    by_cases hin : full ∉ visited ∧ full ∉ acc.1
    · rw [if_pos hin]
      exact Finset.mem_insert_of_mem hx
    · rw [if_neg hin]
      exact Finset.mem_insert_of_mem hx
  · rw [if_neg hsd]; exact hx

lemma addLink_self_edge (root url : String) (visited : Finset String)
    (acc : List String × Finset String × Finset (String × String)) (full : String)
    (hsd : same_domain root full = true) :
    (url, full) ∈ (addLink root url visited acc full).2.2 := by
  unfold addLink
  rw [if_pos hsd]
  by_cases hin : full ∉ visited ∧ full ∉ acc.1
  · rw [if_pos hin]
    exact Finset.mem_insert_self _ _
  · rw [if_neg hin]
    exact Finset.mem_insert_self _ _

lemma processLinks_cons (resolve : String → String → String) (root url : String)
    (visited : Finset String) (h : String) (t : List String)
    (acc : List String × Finset String × Finset (String × String)) :
    processLinks resolve root url visited (h :: t) acc
      = processLinks resolve root url visited t
          (addLink root url visited acc (normalize (resolve url h))) := rfl

lemma processLinks_fst_mem (resolve : String → String → String) (root url : String)
    (visited : Finset String) :
    ∀ (links : List String) (acc : List String × Finset String × Finset (String × String))
      (x : String), x ∈ acc.1 → x ∈ (processLinks resolve root url visited links acc).1 := by
  intro links
  induction links with
  | nil => intro acc x hx; exact hx
  | cons a t ih =>
    intro acc x hx
    rw [processLinks_cons]
    exact ih _ x (addLink_fst_mem _ _ _ _ _ x hx)

lemma processLinks_edges_mem (resolve : String → String → String) (root url : String)
    (visited : Finset String) :
    ∀ (links : List String) (acc : List String × Finset String × Finset (String × String))
      (x : String × String), x ∈ acc.2.2 →
      x ∈ (processLinks resolve root url visited links acc).2.2 := by
  intro links
  induction links with
  | nil => intro acc x hx; exact hx
  | cons a t ih =>
    intro acc x hx
    rw [processLinks_cons]
    exact ih _ x (addLink_edges_mem _ _ _ _ _ x hx)

lemma processLinks_covered (resolve : String → String → String) (root url : String)
    (visited : Finset String) :
    ∀ (links : List String) (acc : List String × Finset String × Finset (String × String))
      (href : String), href ∈ links →
      same_domain root (normalize (resolve url href)) = true →
      (normalize (resolve url href) ∈ visited ∨
        normalize (resolve url href) ∈ (processLinks resolve root url visited links acc).1) := by
  intro links
  induction links with
  | nil => intro acc href h; cases h
  | cons a t ih =>
    intro acc href hmem hsd
    rcases List.mem_cons.mp hmem with heq | hmem'
    · subst heq
      by_cases h1 : normalize (resolve url href) ∈ visited
      · exact Or.inl h1
      · refine Or.inr ?_
        rw [processLinks_cons]
        apply processLinks_fst_mem
        rw [addLink_fst]
        by_cases h2 : normalize (resolve url href) ∈ acc.1
        · by_cases hc : same_domain root (normalize (resolve url href)) = true ∧
              normalize (resolve url href) ∉ visited ∧ normalize (resolve url href) ∉ acc.1
          · rw [if_pos hc]; exact List.mem_append_left _ h2
          · rw [if_neg hc]; exact h2
        · rw [if_pos ⟨hsd, h1, h2⟩]
          exact List.mem_append_right _ (List.mem_singleton_self _)
    · rw [processLinks_cons]
      exact ih _ href hmem' hsd

lemma processLinks_edge_added (resolve : String → String → String) (root url : String)
    (visited : Finset String) :
    ∀ (links : List String) (acc : List String × Finset String × Finset (String × String))
      (href : String), href ∈ links →
      same_domain root (normalize (resolve url href)) = true →
      (url, normalize (resolve url href)) ∈
        (processLinks resolve root url visited links acc).2.2 := by
  intro links
  induction links with
  | nil => intro acc href h; cases h
  | cons a t ih =>
    intro acc href hmem hsd
    rcases List.mem_cons.mp hmem with heq | hmem'
    · subst heq
      rw [processLinks_cons]
      exact processLinks_edges_mem _ _ _ _ _ _ _ (addLink_self_edge _ _ _ _ _ hsd)
    · rw [processLinks_cons]
      exact ih _ href hmem' hsd

lemma processLinks_nodup_disjoint (resolve : String → String → String) (root url : String)
    (visited : Finset String) :
    ∀ (links : List String) (acc : List String × Finset String × Finset (String × String)),
      acc.1.Nodup → (∀ x ∈ acc.1, x ∉ visited) →
      ((processLinks resolve root url visited links acc).1.Nodup ∧
        ∀ x ∈ (processLinks resolve root url visited links acc).1, x ∉ visited) := by
  intro links
  induction links with
  | nil => intro acc h1 h2; exact ⟨h1, h2⟩
  | cons a t ih =>
    intro acc h1 h2
    rw [processLinks_cons]
    apply ih
    · rw [addLink_fst]
      by_cases hc : same_domain root (normalize (resolve url a)) = true ∧
          normalize (resolve url a) ∉ visited ∧ normalize (resolve url a) ∉ acc.1
      · rw [if_pos hc]
        rw [List.nodup_append]
        exact ⟨h1, List.nodup_singleton _, by simp [List.disjoint_singleton, hc.2.2]⟩
      · rw [if_neg hc]; exact h1
    · intro x hx
      rw [addLink_fst] at hx
      by_cases hc : same_domain root (normalize (resolve url a)) = true ∧
          normalize (resolve url a) ∉ visited ∧ normalize (resolve url a) ∉ acc.1
      · rw [if_pos hc] at hx
        rcases List.mem_append.mp hx with h | h
        · exact h2 x h
        · rw [List.mem_singleton.mp h]
          exact hc.2.1
      · rw [if_neg hc] at hx
        exact h2 x hx

lemma processLinks_fst_fifo (resolve : String → String → String) (root url : String)
    (visited : Finset String) :
    ∀ (links : List String) (acc : List String × Finset String × Finset (String × String)),
      (processLinks resolve root url visited links acc).1
        = fifoEnqueue root visited acc.1
            (links.map (fun href => normalize (resolve url href))) := by
  intro links
  induction links with
  | nil => intro acc; rfl
  | cons a t ih =>
    intro acc
    rw [processLinks_cons, ih]
    simp only [List.map_cons, fifoEnqueue, List.foldl_cons]
    rw [addLink_fst]

/-! ### Lemmas about the crawl main loop -/

lemma visitUrl_visited (fetch : String → Option (List String))
    (resolve : String → String → String) (root url : String) (s : CrawlState) :
    (visitUrl fetch resolve root url s).visited = insert url s.visited := by
  unfold visitUrl
  cases fetch url <;> rfl

lemma visitUrl_edges_mem (fetch : String → Option (List String))
    (resolve : String → String → String) (root url : String) (s : CrawlState)
    (x : String × String) (hx : x ∈ s.edges) : x ∈ (visitUrl fetch resolve root url s).edges := by
  unfold visitUrl
  cases hf : fetch url with
  | none => exact hx
  | some links => exact processLinks_edges_mem _ _ _ _ _ _ _ hx

lemma crawlLoop_rtg (fetch : String → Option (List String))
    (resolve : String → String → String) (root : String) (k : ℤ) (s : CrawlState) :
    Relation.ReflTransGen (Step fetch resolve root k) s (crawlLoop fetch resolve root k s) := by
  induction s using crawlLoop.induct fetch resolve root k with
  | case1 s hv =>
    rw [crawlLoop.eq_def, dif_pos hv]
  | case2 s hv url rest hk hmem ih =>
    rw [crawlLoop.eq_def, dif_neg hv]
    simp only [dif_pos hk, dif_pos hmem]
    exact Relation.ReflTransGen.head
      (Step.hit s _ _ (List.head_cons_tail s.to_visit hv).symm hk hmem) ih
  | case3 s hv url rest hk hmem ih =>
    rw [crawlLoop.eq_def, dif_neg hv]
    simp only [dif_pos hk, dif_neg hmem]
    exact Relation.ReflTransGen.head
      (Step.visit s _ _ (List.head_cons_tail s.to_visit hv).symm hk hmem) ih
  | case4 s hv hk =>
    rw [crawlLoop.eq_def, dif_neg hv]
    simp only [dif_neg hk]
    exact Relation.ReflTransGen.refl

lemma crawlLoop_done (fetch : String → Option (List String))
    (resolve : String → String → String) (root : String) (k : ℤ) (s : CrawlState) :
    (crawlLoop fetch resolve root k s).to_visit = []
      ∨ k ≤ ((crawlLoop fetch resolve root k s).visited.card : ℤ) := by
  induction s using crawlLoop.induct fetch resolve root k with
  | case1 s hv =>
    rw [crawlLoop.eq_def, dif_pos hv]
    exact Or.inl hv
  | case2 s hv url rest hk hmem ih =>
    rw [crawlLoop.eq_def, dif_neg hv]
    simp only [dif_pos hk, dif_pos hmem]
    exact ih
  | case3 s hv url rest hk hmem ih =>
    rw [crawlLoop.eq_def, dif_neg hv]
    simp only [dif_pos hk, dif_neg hmem]
    exact ih
  | case4 s hv hk =>
    rw [crawlLoop.eq_def, dif_neg hv]
    simp only [dif_neg hk]
    exact Or.inr (le_of_not_lt hk)

lemma crawlLoop_edges_mono (fetch : String → Option (List String))
    (resolve : String → String → String) (root : String) (k : ℤ) (s : CrawlState)
    (x : String × String) (hx : x ∈ s.edges) :
    x ∈ (crawlLoop fetch resolve root k s).edges := by
  induction s using crawlLoop.induct fetch resolve root k with
  | case1 s hv =>
    rw [crawlLoop.eq_def, dif_pos hv]
    exact hx
  | case2 s hv url rest hk hmem ih =>
    rw [crawlLoop.eq_def, dif_neg hv]
    simp only [dif_pos hk, dif_pos hmem]
    exact ih hx
  | case3 s hv url rest hk hmem ih =>
    rw [crawlLoop.eq_def, dif_neg hv]
    simp only [dif_pos hk, dif_neg hmem]
    exact ih (visitUrl_edges_mem _ _ _ _ _ _ hx)
  | case4 s hv hk =>
    rw [crawlLoop.eq_def, dif_neg hv]
    simp only [dif_neg hk]
    exact hx

/-! ### Invariants preserved by one loop iteration -/

lemma step_card_le (fetch : String → Option (List String))
    (resolve : String → String → String) (root : String) (k : ℤ) (s s' : CrawlState)
    (h : Step fetch resolve root k s s') : (s'.visited.card : ℤ) ≤ k := by
  cases h with
  | hit url rest hv hk hmem =>
    exact le_of_lt hk
  | visit url rest hv hk hmem =>
    rw [visitUrl_visited]
    have h1 : (insert url s.visited).card = s.visited.card + 1 :=
      Finset.card_insert_of_not_mem hmem
    show ((insert url s.visited).card : ℤ) ≤ k
    rw [h1]
    push_cast
    omega

lemma step_inv_frontier (fetch : String → Option (List String))
    (resolve : String → String → String) (root : String) (k : ℤ) (s s' : CrawlState)
    (h : Step fetch resolve root k s s')
    (hnd : s.to_visit.Nodup) (hdisj : ∀ x ∈ s.to_visit, x ∉ s.visited) :
    s'.to_visit.Nodup ∧ ∀ x ∈ s'.to_visit, x ∉ s'.visited := by
  cases h with
  | hit url rest hv hk hmem =>
    rw [hv] at hnd hdisj
    exact ⟨(List.nodup_cons.mp hnd).2, fun x hx => hdisj x (List.mem_cons_of_mem _ hx)⟩
  | visit url rest hv hk hmem =>
    rw [hv] at hnd hdisj
    have hnd' : rest.Nodup := (List.nodup_cons.mp hnd).2
    have hu : url ∉ rest := (List.nodup_cons.mp hnd).1
    have hd' : ∀ x ∈ rest, x ∉ insert url s.visited := by
      intro x hx
      rw [Finset.mem_insert]
      push_neg
      exact ⟨fun he => hu (he ▸ hx), hdisj x (List.mem_cons_of_mem _ hx)⟩
    unfold visitUrl
    cases hf : fetch url with
    | none => exact ⟨hnd', hd'⟩
    | some links => exact processLinks_nodup_disjoint _ _ _ _ _ _ hnd' hd'

lemma step_links_covered (fetch : String → Option (List String))
    (resolve : String → String → String) (root : String) (k : ℤ) (s s' : CrawlState)
    (h : Step fetch resolve root k s s') (hLC : LinksCovered fetch resolve root s) :
    LinksCovered fetch resolve root s' := by
  cases h with
  | hit url rest hv hk hmem =>
    obtain ⟨hr, hcov⟩ := hLC
    constructor
    · rcases hr with h1 | h1
      · exact Or.inl h1
      · rw [hv] at h1
        rcases List.mem_cons.mp h1 with h2 | h2
        · exact Or.inl (h2 ▸ hmem)
        · exact Or.inr h2
    · intro u hu links hf href hhref hsd
      rcases hcov u hu links hf href hhref hsd with h1 | h1
      · exact Or.inl h1
      · rw [hv] at h1
        rcases List.mem_cons.mp h1 with h2 | h2
        · exact Or.inl (h2 ▸ hmem)
        · exact Or.inr h2
  | visit url rest hv hk hmem =>
    obtain ⟨hr, hcov⟩ := hLC
    have hvis : (visitUrl fetch resolve root url { s with to_visit := rest }).visited
        = insert url s.visited := visitUrl_visited _ _ _ _ _
    have htv : ∀ x ∈ rest, x ∈ (visitUrl fetch resolve root url
        { s with to_visit := rest }).to_visit := by
      intro x hx
      unfold visitUrl
      cases hf : fetch url with
      | none => exact hx
      | some links => exact processLinks_fst_mem _ _ _ _ _ _ _ hx
    constructor
    · rcases hr with h1 | h1
      · exact Or.inl (hvis ▸ Finset.mem_insert_of_mem h1)
      · rw [hv] at h1
        rcases List.mem_cons.mp h1 with h2 | h2
        · exact Or.inl (hvis ▸ (h2 ▸ Finset.mem_insert_self url s.visited))
        · exact Or.inr (htv _ h2)
    · intro u hu links hf href hhref hsd
      rw [hvis, Finset.mem_insert] at hu
      rcases hu with h1 | h1
      · subst h1
        unfold visitUrl
        cases hfu : fetch u with
        | none =>
          rw [hfu] at hf
          cases hf
        | some links0 =>
          rw [hfu] at hf
          injection hf with hf
          subst hf
          rcases processLinks_covered resolve root u (insert u s.visited) links0
              (rest, insert u s.nodes, s.edges) href hhref hsd with h2 | h2
          · exact Or.inl h2
          · exact Or.inr h2
      · rcases hcov u h1 links hf href hhref hsd with h2 | h2
        · exact Or.inl (hvis ▸ Finset.mem_insert_of_mem h2)
        · rw [hv] at h2
          rcases List.mem_cons.mp h2 with h3 | h3
          · exact Or.inl (hvis ▸ (h3 ▸ Finset.mem_insert_self url s.visited))
          · exact Or.inr (htv _ h3)

/-! ### Transport of the invariants along an execution -/

lemma rtg_card_le (fetch : String → Option (List String))
    (resolve : String → String → String) (root : String) (k : ℤ) (s0 s : CrawlState)
    (h : Relation.ReflTransGen (Step fetch resolve root k) s0 s)
    (h0 : (s0.visited.card : ℤ) ≤ k) : (s.visited.card : ℤ) ≤ k := by
  induction h with
  | refl => exact h0
  | tail hab hbc ih => exact step_card_le _ _ _ _ _ _ hbc

lemma rtg_inv_frontier (fetch : String → Option (List String))
    (resolve : String → String → String) (root : String) (k : ℤ) (s0 s : CrawlState)
    (h : Relation.ReflTransGen (Step fetch resolve root k) s0 s)
    (hnd : s0.to_visit.Nodup) (hdisj : ∀ x ∈ s0.to_visit, x ∉ s0.visited) :
    s.to_visit.Nodup ∧ ∀ x ∈ s.to_visit, x ∉ s.visited := by
  induction h with
  | refl => exact ⟨hnd, hdisj⟩
  | tail hab hbc ih => exact step_inv_frontier _ _ _ _ _ _ hbc ih.1 ih.2

lemma rtg_links_covered (fetch : String → Option (List String))
    (resolve : String → String → String) (root : String) (k : ℤ) (s0 s : CrawlState)
    (h : Relation.ReflTransGen (Step fetch resolve root k) s0 s)
    (h0 : LinksCovered fetch resolve root s0) : LinksCovered fetch resolve root s := by
  induction h with
  | refl => exact h0
  | tail hab hbc ih => exact step_links_covered _ _ _ _ _ _ hbc ih

lemma reach_subset_visited (fetch : String → Option (List String))
    (resolve : String → String → String) (root : String) (s : CrawlState)
    (hLC : LinksCovered fetch resolve (normalize root) s) (htv : s.to_visit = [])
    (v : String) (hv : Reach fetch resolve root v) : v ∈ s.visited := by
  induction hv with
  | origin =>
    rcases hLC.1 with h | h
    · exact h
    · rw [htv] at h
      cases h
  | follow u links href hu hf hhref hsd ih =>
    rcases hLC.2 u ih links hf href hhref hsd with h | h
    · exact h
    · rw [htv] at h
      cases h

/-! ### Claim theorems about the crawl -/

/-- Claim C2: at every point during the crawl and at its return the visited
set holds at most `max_pages` URLs, and whenever at least `max_pages`
same-domain pages are reachable from the root (witnessed by a finite set `S`
of reachable pages of size at least `max_pages`), exactly `max_pages` URLs
are visited at the return. -/
theorem crawl_budget_respected (fetch : String → Option (List String))
    (resolve : String → String → String) (root : String) (k : ℤ) (hk : 0 < k) :
    (∀ s, Relation.ReflTransGen (Step fetch resolve (normalize root) k) (initState root) s →
        (s.visited.card : ℤ) ≤ k)
  ∧ ((crawlState fetch resolve root k).visited.card : ℤ) ≤ k
  ∧ ∀ S : Finset String, (∀ u ∈ S, Reach fetch resolve root u) → k ≤ (S.card : ℤ) →
      ((crawlState fetch resolve root k).visited.card : ℤ) = k := by
  have hpt : ∀ s, Relation.ReflTransGen (Step fetch resolve (normalize root) k)
      (initState root) s → (s.visited.card : ℤ) ≤ k := by
    intro s h
    apply rtg_card_le fetch resolve (normalize root) k _ s h
    show (((∅ : Finset String).card : ℤ)) ≤ k
    simp
    omega
  have hrtg : Relation.ReflTransGen (Step fetch resolve (normalize root) k) (initState root)
      (crawlState fetch resolve root k) := crawlLoop_rtg _ _ _ _ _
  have hle : ((crawlState fetch resolve root k).visited.card : ℤ) ≤ k := hpt _ hrtg
  refine ⟨hpt, hle, ?_⟩
  intro S hS hcard
  have hdone : (crawlState fetch resolve root k).to_visit = []
      ∨ k ≤ ((crawlState fetch resolve root k).visited.card : ℤ) :=
    crawlLoop_done _ _ _ _ _
  rcases hdone with hdone | hdone
  · have hLC : LinksCovered fetch resolve (normalize root) (crawlState fetch resolve root k) := by
      apply rtg_links_covered fetch resolve (normalize root) k _ _ hrtg
      constructor
      · exact Or.inr (List.mem_singleton_self _)
      · intro u hu
        exact absurd hu (Finset.not_mem_empty u)
    have hsub : S ⊆ (crawlState fetch resolve root k).visited := by
      intro u hu
      exact reach_subset_visited fetch resolve root _ hLC hdone u (hS u hu)
    have hcc := Finset.card_le_card hsub
    omega
  · omega

/-- Instantiation of claim C2: a one-page site crawled with budget one visits
exactly one page. -/
theorem crawl_budget_respected_inst :
    ((crawlState (fun _ => some []) (fun _ href => href) "https://e.com" 1).visited.card : ℤ)
      = 1 := by
  apply (crawl_budget_respected (fun _ => some []) (fun _ href => href) "https://e.com" 1
    (by decide)).2.2 {"https://e.com"}
  · intro u hu
    have h1 : u = "https://e.com" := by simpa using hu
    subst h1
    have h2 : normalize "https://e.com" = "https://e.com" := by decide
    exact h2 ▸ Reach.origin
  · decide

/-- Claim C4: when the fetch of a frontier URL fails, the URL is added to the
visited set, no node and no edges are added for it, and the loop continues
with the next frontier entry; the failure is not propagated (the loop is a
total function and simply recurses on the updated state). -/
theorem fetch_failure_skipped_nonfatal (fetch : String → Option (List String))
    (resolve : String → String → String) (root : String) (k : ℤ)
    (s : CrawlState) (url : String) (rest : List String)
    (hv : s.to_visit = url :: rest) (hmem : url ∉ s.visited)
    (hk : (s.visited.card : ℤ) < k) (hf : fetch url = none) :
    visitUrl fetch resolve root url { s with to_visit := rest }
      = { s with to_visit := rest, visited := insert url s.visited }
  ∧ crawlLoop fetch resolve root k s
      = crawlLoop fetch resolve root k
          { s with to_visit := rest, visited := insert url s.visited } := by
  have h1 : visitUrl fetch resolve root url { s with to_visit := rest }
      = { s with to_visit := rest, visited := insert url s.visited } := by
    unfold visitUrl
    rw [hf]
  refine ⟨h1, ?_⟩
  have hne : ¬ s.to_visit = [] := by rw [hv]; simp
  rw [crawlLoop.eq_def, dif_neg hne]
  simp only [hv, List.head_cons, List.tail_cons]
  rw [dif_pos hk, dif_neg hmem, h1]

/-- Instantiation of claim C4: a root whose fetch fails is marked visited and
contributes neither node nor edge. -/
theorem fetch_failure_skipped_nonfatal_inst :
    visitUrl (fun _ => none) (fun _ href => href) "https://e.com" "https://e.com"
        ⟨[], ∅, ∅, ∅⟩
      = ⟨[], insert "https://e.com" ∅, ∅, ∅⟩
  ∧ crawlLoop (fun _ => none) (fun _ href => href) "https://e.com" 5
        ⟨["https://e.com"], ∅, ∅, ∅⟩
      = crawlLoop (fun _ => none) (fun _ href => href) "https://e.com" 5
          ⟨[], insert "https://e.com" ∅, ∅, ∅⟩ :=
  fetch_failure_skipped_nonfatal (fun _ => none) (fun _ href => href) "https://e.com" 5
    ⟨["https://e.com"], ∅, ∅, ∅⟩ "https://e.com" [] rfl (by decide) (by decide) rfl

/-- Claim C5 counterexample: invoked with the non-positive page budget zero,
the crawl is not rejected and does not fail fast — it returns normally with
the untouched initial state: an empty visited set and an empty graph. -/
theorem nonpositive_budget_not_rejected :
    crawlState (fun _ => some []) (fun _ href => href) "https://e.com" 0
      = initState "https://e.com"
  ∧ crawl (fun _ => some []) (fun _ href => href) "https://e.com" 0 = (∅, ∅) := by
  have h1 : crawlState (fun _ => some []) (fun _ href => href) "https://e.com" 0
      = initState "https://e.com" := by
    unfold crawlState
    rw [crawlLoop.eq_def]
    have hne : ¬ (initState "https://e.com").to_visit = [] := by simp [initState]
    rw [dif_neg hne]
    have hkk : ¬ (((initState "https://e.com").visited.card : ℤ) < 0) := by
      simp [initState]
    rw [dif_neg hkk]
  exact ⟨h1, by unfold crawl; rw [h1]; rfl⟩

/-- Claim C5 (amended): `crawl` performs no validation of `max_pages`.  For
any non-positive budget the main loop body never runs: the crawl returns the
initial state unchanged — nothing is visited and the graph is empty.  This is
a silent no-op, not a rejection. -/
theorem nonpositive_budget_noop (fetch : String → Option (List String))
    (resolve : String → String → String) (root : String) (k : ℤ) (hk : k ≤ 0) :
    crawlState fetch resolve root k = initState root
  ∧ (crawlState fetch resolve root k).visited = ∅
  ∧ crawl fetch resolve root k = (∅, ∅) := by
  have h1 : crawlState fetch resolve root k = initState root := by
    unfold crawlState
    rw [crawlLoop.eq_def]
    have hne : ¬ (initState root).to_visit = [] := by simp [initState]
    rw [dif_neg hne]
    have hkk : ¬ (((initState root).visited.card : ℤ) < k) := by
      show ¬ (((∅ : Finset String).card : ℤ) < k)
      simp
      omega
    rw [dif_neg hkk]
  exact ⟨h1, by rw [h1]; rfl, by unfold crawl; rw [h1]; rfl⟩

/-- Instantiation of amended claim C5 at the concrete budget minus three. -/
theorem nonpositive_budget_noop_inst :
    crawlState (fun _ => some []) (fun _ href => href) "https://e.com" (-3)
      = initState "https://e.com"
  ∧ (crawlState (fun _ => some []) (fun _ href => href) "https://e.com" (-3)).visited = ∅
  ∧ crawl (fun _ => some []) (fun _ href => href) "https://e.com" (-3) = (∅, ∅) :=
  nonpositive_budget_noop (fun _ => some []) (fun _ href => href) "https://e.com" (-3)
    (by decide)

/-- Claim C6: the frontier is a FIFO queue.  First conjunct: the frontier
produced by the link loop is exactly the spec's FIFO discipline — links are
appended at the tail precisely when same-domain, not visited, and not already
queued (`fifoEnqueue` transcribes the spec wording).  Second conjunct: each
loop iteration dequeues the head of the frontier and continues on the state
produced from the remaining tail. -/
theorem frontier_fifo_dedup (fetch : String → Option (List String))
    (resolve : String → String → String) (root : String) (k : ℤ) :
    (∀ (url : String) (visited : Finset String) (links : List String)
        (acc : List String × Finset String × Finset (String × String)),
      (processLinks resolve root url visited links acc).1
        = fifoEnqueue root visited acc.1
            (links.map (fun href => normalize (resolve url href))))
  ∧ ∀ (s : CrawlState) (url : String) (rest : List String),
      s.to_visit = url :: rest → (s.visited.card : ℤ) < k → url ∉ s.visited →
      crawlLoop fetch resolve root k s
        = crawlLoop fetch resolve root k
            (visitUrl fetch resolve root url { s with to_visit := rest }) := by
  constructor
  · intro url visited links acc
    exact processLinks_fst_fifo resolve root url visited links acc
  · intro s url rest hv hk hmem
    have hne : ¬ s.to_visit = [] := by rw [hv]; simp
    rw [crawlLoop.eq_def, dif_neg hne]
    simp only [hv, List.head_cons, List.tail_cons]
    rw [dif_pos hk, dif_neg hmem]

/-- Instantiation of claim C6: the loop on a one-element frontier dequeues
its head and recurses on the visit of that head. -/
theorem frontier_fifo_dedup_inst :
    crawlLoop (fun _ => some []) (fun _ href => href) "https://e.com" 5
        ⟨["https://e.com"], ∅, ∅, ∅⟩
      = crawlLoop (fun _ => some []) (fun _ href => href) "https://e.com" 5
          (visitUrl (fun _ => some []) (fun _ href => href) "https://e.com" "https://e.com"
            ⟨[], ∅, ∅, ∅⟩) :=
  (frontier_fifo_dedup (fun _ => some []) (fun _ href => href) "https://e.com" 5).2
    ⟨["https://e.com"], ∅, ∅, ∅⟩ "https://e.com" [] rfl (by decide) (by decide)

/-- Claim C7: the crawl main loop terminates after finitely many iterations —
the returned state is connected to the initial state by a finite chain of
loop iterations (`Relation.ReflTransGen` of `Step`) — and the loop exits only
with an empty frontier or with the visited count at least the budget; both
exits return the final state normally. -/
theorem crawl_terminates (fetch : String → Option (List String))
    (resolve : String → String → String) (root : String) (k : ℤ) :
    Relation.ReflTransGen (Step fetch resolve (normalize root) k) (initState root)
      (crawlState fetch resolve root k)
  ∧ ((crawlState fetch resolve root k).to_visit = []
      ∨ k ≤ ((crawlState fetch resolve root k).visited.card : ℤ)) :=
  ⟨crawlLoop_rtg _ _ _ _ _, crawlLoop_done _ _ _ _ _⟩

/-- Claim C9: at every reachable point of the crawl the frontier has no
duplicates and is disjoint from the visited set, so the dequeue-time guard
that would discard an already-visited head can never fire. -/
theorem frontier_guard_unreachable (fetch : String → Option (List String))
    (resolve : String → String → String) (root : String) (k : ℤ) :
    ∀ s, Relation.ReflTransGen (Step fetch resolve (normalize root) k) (initState root) s →
      s.to_visit.Nodup ∧ (∀ u ∈ s.to_visit, u ∉ s.visited) ∧
        ∀ url rest, s.to_visit = url :: rest → url ∉ s.visited := by
  intro s h
  have h1 := rtg_inv_frontier fetch resolve (normalize root) k _ s h
    (List.nodup_singleton _) (fun x _ => Finset.not_mem_empty x)
  refine ⟨h1.1, h1.2, ?_⟩
  intro url rest hv
  exact h1.2 url (by rw [hv]; exact List.mem_cons_self url rest)

/-- Instantiation of claim C9 at the initial state of a concrete crawl. -/
theorem frontier_guard_unreachable_inst :
    (initState "https://e.com").to_visit.Nodup
  ∧ (∀ u ∈ (initState "https://e.com").to_visit, u ∉ (initState "https://e.com").visited)
  ∧ ∀ url rest, (initState "https://e.com").to_visit = url :: rest →
      url ∉ (initState "https://e.com").visited :=
  frontier_guard_unreachable (fun _ => some []) (fun _ href => href) "https://e.com" 5
    (initState "https://e.com") Relation.ReflTransGen.refl

/-- Claim C10: when a fetched page contains a link that resolves and
normalizes to the page itself (for example a fragment-only link), the crawler
adds the self-loop edge to the graph. -/
theorem self_loop_edge_possible (fetch : String → Option (List String))
    (resolve : String → String → String) (root : String) (k : ℤ)
    (s : CrawlState) (url : String) (rest : List String) (links : List String) (href : String)
    (hv : s.to_visit = url :: rest) (hmem : url ∉ s.visited) (hk : (s.visited.card : ℤ) < k)
    (hf : fetch url = some links) (hhref : href ∈ links)
    (hself : normalize (resolve url href) = url) (hsd : same_domain root url = true) :
    (url, url) ∈ (crawlLoop fetch resolve root k s).edges := by
  have hne : ¬ s.to_visit = [] := by rw [hv]; simp
  rw [crawlLoop.eq_def, dif_neg hne]
  simp only [hv, List.head_cons, List.tail_cons]
  rw [dif_pos hk, dif_neg hmem]
  apply crawlLoop_edges_mono
  have h2 := processLinks_edge_added resolve root url (insert url s.visited) links
    (rest, insert url s.nodes, s.edges) href hhref (by rw [hself]; exact hsd)
  rw [hself] at h2
  show (url, url) ∈ (visitUrl fetch resolve root url { s with to_visit := rest }).edges
  unfold visitUrl
  rw [hf]
  exact h2

/-- Instantiation of claim C10: a page containing the fragment-only link
hash-top receives a self-loop edge. -/
theorem self_loop_edge_possible_inst :
    ("https://e.com/p", "https://e.com/p") ∈
      (crawlLoop (fun u => if u = "https://e.com/p" then some ["#top"] else some [])
        (fun u href => u ++ href) "https://e.com/p" 5
        ⟨["https://e.com/p"], ∅, ∅, ∅⟩).edges :=
  self_loop_edge_possible (fun u => if u = "https://e.com/p" then some ["#top"] else some [])
    (fun u href => u ++ href) "https://e.com/p" 5 ⟨["https://e.com/p"], ∅, ∅, ∅⟩
    "https://e.com/p" [] ["#top"] "#top" rfl (by decide) (by decide) (by decide)
    (by decide) (by decide) (by decide)

/-! ### Lemmas about PageRank -/

lemma card_targets_eq_outdeg (V : Finset String) (E : Finset (String × String))
    (hE : ∀ e ∈ E, e.1 ∈ V ∧ e.2 ∈ V) (u : String) :
    (V.filter (fun v => (u, v) ∈ E)).card = outdeg E u := by
  unfold outdeg
  symm
  apply Finset.card_bij (fun e _ => e.2)
  · intro e he
    rw [Finset.mem_filter] at he
    obtain ⟨heE, heu⟩ := he
    rw [Finset.mem_filter]
    refine ⟨(hE e heE).2, ?_⟩
    have h3 : (u, e.2) = e := by
      rw [← heu]
    rw [h3]
    exact heE
  · intro e1 he1 e2 he2 heq
    rw [Finset.mem_filter] at he1 he2
    rw [Prod.ext_iff]
    exact ⟨he1.2.trans he2.2.symm, heq⟩
  · intro v hvmem
    rw [Finset.mem_filter] at hvmem
    exact ⟨(u, v), Finset.mem_filter.mpr ⟨hvmem.2, rfl⟩, rfl⟩

lemma sum_prStep (V : Finset String) (E : Finset (String × String)) (α : ℚ) (p : String → ℚ)
    (hV : V.Nonempty) (hE : ∀ e ∈ E, e.1 ∈ V ∧ e.2 ∈ V) :
    ∑ v in V, prStep V E α p v = (1 - α) + α * ∑ u in V, p u := by
  have hN : ((V.card : ℚ)) ≠ 0 := by
    have h0 := Finset.card_pos.mpr hV
    exact Nat.cast_ne_zero.mpr (Nat.pos_iff_ne_zero.mp h0)
  unfold prStep
  rw [Finset.sum_add_distrib]
  have hconst : ∑ _v in V, (1 - α) / (V.card : ℚ) = 1 - α := by
    rw [Finset.sum_const, nsmul_eq_mul]
    field_simp
  rw [hconst]
  congr 1
  rw [← Finset.mul_sum]
  congr 1
  rw [Finset.sum_add_distrib]
  have hdang : ∑ _v in V, (∑ u in dangling V E, p u) / (V.card : ℚ)
      = ∑ u in dangling V E, p u := by
    rw [Finset.sum_const, nsmul_eq_mul]
    field_simp
  rw [hdang]
  have hmain : ∑ v in V, ∑ u in V.filter (fun u => (u, v) ∈ E), p u / (outdeg E u : ℚ)
      = ∑ u in V, if outdeg E u = 0 then 0 else p u := by
    calc ∑ v in V, ∑ u in V.filter (fun u => (u, v) ∈ E), p u / (outdeg E u : ℚ)
        = ∑ v in V, ∑ u in V, if (u, v) ∈ E then p u / (outdeg E u : ℚ) else 0 := by
          apply Finset.sum_congr rfl
          intro v _
          rw [Finset.sum_filter]
      _ = ∑ u in V, ∑ v in V, if (u, v) ∈ E then p u / (outdeg E u : ℚ) else 0 :=
          Finset.sum_comm
      _ = ∑ u in V, (V.filter (fun v => (u, v) ∈ E)).card • (p u / (outdeg E u : ℚ)) := by
          apply Finset.sum_congr rfl
          intro u _
          rw [← Finset.sum_filter, Finset.sum_const]
      _ = ∑ u in V, if outdeg E u = 0 then 0 else p u := by
          apply Finset.sum_congr rfl
          intro u _
          rw [card_targets_eq_outdeg V E hE u, nsmul_eq_mul]
          by_cases h : outdeg E u = 0
          · simp [h]
          · have hd : ((outdeg E u : ℚ)) ≠ 0 := Nat.cast_ne_zero.mpr h
            rw [if_neg h, mul_comm, div_mul_cancel₀ _ hd]
  rw [hmain]
  unfold dangling
  rw [Finset.sum_filter, ← Finset.sum_add_distrib]
  apply Finset.sum_congr rfl
  intro u _
  by_cases h : outdeg E u = 0 <;> simp [h]

lemma prStep_nonneg (V : Finset String) (E : Finset (String × String)) (α : ℚ)
    (p : String → ℚ) (hα0 : 0 ≤ α) (hα1 : α ≤ 1) (hp : ∀ u ∈ V, 0 ≤ p u) (v : String) :
    0 ≤ prStep V E α p v := by
  unfold prStep
  apply add_nonneg
  · apply div_nonneg
    · linarith
    · exact Nat.cast_nonneg _
  · apply mul_nonneg hα0
    apply add_nonneg
    · apply Finset.sum_nonneg
      intro u hu
      apply div_nonneg
      · exact hp u (Finset.mem_filter.mp hu).1
      · exact Nat.cast_nonneg _
    · apply div_nonneg
      · apply Finset.sum_nonneg
        intro u hu
        have hu' : u ∈ V := by
          unfold dangling at hu
          exact (Finset.mem_filter.mp hu).1
        exact hp u hu'
      · exact Nat.cast_nonneg _

lemma prStep_invariant (V : Finset String) (E : Finset (String × String)) (α : ℚ)
    (p : String → ℚ) (hV : V.Nonempty) (hE : ∀ e ∈ E, e.1 ∈ V ∧ e.2 ∈ V)
    (hα0 : 0 ≤ α) (hα1 : α ≤ 1) (hp : ∀ u ∈ V, 0 ≤ p u) (hsum : ∑ u in V, p u = 1) :
    (∀ u ∈ V, 0 ≤ prStep V E α p u) ∧ ∑ u in V, prStep V E α p u = 1 := by
  refine ⟨fun u _ => prStep_nonneg V E α p hα0 hα1 hp u, ?_⟩
  rw [sum_prStep V E α p hV hE, hsum]
  ring

lemma pagerankAux_invariant (V : Finset String) (E : Finset (String × String)) (α tol : ℚ)
    (hV : V.Nonempty) (hE : ∀ e ∈ E, e.1 ∈ V ∧ e.2 ∈ V) (hα0 : 0 ≤ α) (hα1 : α ≤ 1) :
    ∀ (n : ℕ) (p : String → ℚ), (∀ u ∈ V, 0 ≤ p u) → (∑ u in V, p u = 1) →
      ((∀ u ∈ V, 0 ≤ pagerankAux V E α tol n p u) ∧ ∑ u in V, pagerankAux V E α tol n p u = 1) := by
  intro n
  induction n with
  | zero =>
    intro p hp hsum
    exact ⟨hp, hsum⟩
  | succ m ih =>
    intro p hp hsum
    obtain ⟨hq1, hq2⟩ := prStep_invariant V E α p hV hE hα0 hα1 hp hsum
    show ((∀ u ∈ V, 0 ≤ (if (∑ v in V, |prStep V E α p v - p v|) < tol
        then prStep V E α p else pagerankAux V E α tol m (prStep V E α p)) u)
      ∧ ∑ u in V, (if (∑ v in V, |prStep V E α p v - p v|) < tol
        then prStep V E α p else pagerankAux V E α tol m (prStep V E α p)) u = 1)
    by_cases hc : (∑ v in V, |prStep V E α p v - p v|) < tol
    · rw [if_pos hc]
      exact ⟨hq1, hq2⟩
    · rw [if_neg hc]
      exact ih (prStep V E α p) hq1 hq2

lemma prInit_invariant (V : Finset String) (hV : V.Nonempty) :
    (∀ u ∈ V, 0 ≤ prInit V u) ∧ ∑ u in V, prInit V u = 1 := by
  have hN : ((V.card : ℚ)) ≠ 0 := by
    have h0 := Finset.card_pos.mpr hV
    exact Nat.cast_ne_zero.mpr (Nat.pos_iff_ne_zero.mp h0)
  constructor
  · intro u _
    unfold prInit
    positivity
  · unfold prInit
    rw [Finset.sum_const, nsmul_eq_mul]
    field_simp

/-- Claim C3: for every non-empty finite graph (edges between stored nodes),
the PageRank score map has one value per node, every value lies in the unit
interval, and the values over all nodes sum to one exactly — hence also
within the 1e-6 tolerance — including in the presence of dangling nodes. -/
theorem pagerank_scores_sum_to_one (V : Finset String) (E : Finset (String × String))
    (α tol : ℚ) (cap : ℕ) (hV : V.Nonempty) (hE : ∀ e ∈ E, e.1 ∈ V ∧ e.2 ∈ V)
    (hα0 : 0 < α) (hα1 : α < 1) :
    (∀ v ∈ V, 0 ≤ pagerank V E α tol cap v ∧ pagerank V E α tol cap v ≤ 1)
  ∧ (∑ v in V, pagerank V E α tol cap v) = 1
  ∧ |(∑ v in V, pagerank V E α tol cap v) - 1| ≤ 1 / 1000000 := by
  obtain ⟨hinit1, hinit2⟩ := prInit_invariant V hV
  obtain ⟨h1, h2⟩ := pagerankAux_invariant V E α tol hV hE (le_of_lt hα0) (le_of_lt hα1)
    cap (prInit V) hinit1 hinit2
  refine ⟨?_, h2, by unfold pagerank; rw [h2]; norm_num⟩
  intro v hv
  refine ⟨h1 v hv, ?_⟩
  calc pagerank V E α tol cap v
      ≤ ∑ u in V, pagerank V E α tol cap u := Finset.single_le_sum (fun u hu => h1 u hu) hv
    _ = 1 := h2

/-- Instantiation of claim C3 on the spec's three-node dangling fixture
(a to b, b to c, c dangling) with the source's damping factor 0.85. -/
theorem pagerank_scores_sum_to_one_inst :
    (∀ v ∈ ({"a", "b", "c"} : Finset String),
        0 ≤ pagerank {"a", "b", "c"} {("a", "b"), ("b", "c")} (17 / 20) (1 / 100000000) 100 v ∧
        pagerank {"a", "b", "c"} {("a", "b"), ("b", "c")} (17 / 20) (1 / 100000000) 100 v ≤ 1)
  ∧ (∑ v in ({"a", "b", "c"} : Finset String),
        pagerank {"a", "b", "c"} {("a", "b"), ("b", "c")} (17 / 20) (1 / 100000000) 100 v) = 1
  ∧ |(∑ v in ({"a", "b", "c"} : Finset String),
        pagerank {"a", "b", "c"} {("a", "b"), ("b", "c")} (17 / 20) (1 / 100000000) 100 v) - 1|
      ≤ 1 / 1000000 :=
  pagerank_scores_sum_to_one {"a", "b", "c"} {("a", "b"), ("b", "c")} (17 / 20)
    (1 / 100000000) 100 (by decide) (by decide) (by norm_num) (by norm_num)

/-- Claim C8: on a graph with zero nodes, the PageRank computation and the
edge weighting are skipped entirely — the function returns immediately, so no
division by zero is ever attempted for the empty graph. -/
theorem empty_graph_skips_computation (V : Finset String) (E : Finset (String × String))
    (h : V.card = 0) : compute_and_visualize V E = none := by
  unfold compute_and_visualize
  rw [if_pos h]

/-- Instantiation of claim C8 on the empty graph. -/
theorem empty_graph_skips_computation_inst : compute_and_visualize ∅ ∅ = none :=
  empty_graph_skips_computation ∅ ∅ rfl

end PagerankCrawl
